import Mathlib

/-!
# Verification of the sketch-time-mini-app core

Shallow embedding of the repository's streak computation, session
completion, incremental stats cache and timer registry, together with
theorems settling the frozen claims about them.

Calendar days are modelled as integers (the number of the UTC day): the
JavaScript sources only ever hold dates of the form `YYYY-MM-DD` parsed to
UTC midnight, so `Math.floor((prev - curr) / 86400000)` is exactly the
difference of the day numbers, and `toDateString` equality is day-number
equality.
-/

open scoped List

/-- Result record of `calculateStreaks`
(src/unnamed/part_000 lines 151-199, src/unnamed/part_001 lines 168-225;
the two variants are character-for-character the same algorithm, the
second merely initialises `longestStreak` to 0 before re-assigning 1). -/
structure StreakResult where
  currentStreak : Nat
  longestStreak : Nat
  hasUploadedToday : Bool
deriving DecidableEq, Repr

instance : IsTotal Int (· ≥ ·) := ⟨fun a b => (le_total b a).imp id id⟩

instance : IsTrans Int (· ≥ ·) := ⟨fun _ _ _ h1 h2 => le_trans h2 h1⟩

instance : IsAntisymm Int (· ≥ ·) := ⟨fun _ _ h1 h2 => le_antisymm h2 h1⟩

/-- `.sort((a, b) => b - a)`: sort the upload days descending. -/
def sortDesc (l : List Int) : List Int := List.insertionSort (· ≥ ·) l

/-- The `for`-loop computing the current streak: starting from the most
recent day `prev`, count consecutive pairs while the gap is exactly one
day, and `break` at the first other gap. -/
def walkCurrent : Int → List Int → Nat
  | _, [] => 0
  | prev, curr :: rest => if prev - curr = 1 then 1 + walkCurrent curr rest else 0

/-- The second `for`-loop: running counter `tempStreak`, maximum tracked in
`longestStreak`, reset to 1 on a gap that is not one day. -/
def longestScan : Int → Nat → Nat → List Int → Nat
  | _, _, longest, [] => longest
  | prev, temp, longest, curr :: rest =>
    if prev - curr = 1 then longestScan curr (temp + 1) (max longest (temp + 1)) rest
    else longestScan curr 1 longest rest

/-- Body of `calculateStreaks` after the empty check, operating on the
descending-sorted dates (`orig` is the raw input list, used only for the
`includes(today)` test). -/
def streaksOfSorted (today : Int) (orig sorted : List Int) : StreakResult :=
  match sorted with
  | [] => ⟨0, 0, decide (today ∈ orig)⟩
  | d0 :: rest =>
    ⟨if d0 = today ∨ d0 = today - 1 then 1 + walkCurrent d0 rest else 0,
     longestScan d0 1 1 rest,
     decide (today ∈ orig)⟩

/-- `calculateStreaks(uploadDates)` of src/unnamed/part_000 and
src/unnamed/part_001, with `today` passed explicitly instead of read from
the clock. -/
def calculateStreaks (today : Int) (uploadDates : List Int) : StreakResult :=
  if uploadDates.isEmpty then ⟨0, 0, false⟩
  else streaksOfSorted today uploadDates (sortDesc uploadDates)

/-! ## The §4.2 reference algorithm, written from the spec's words -/

/-- Modelled from the spec (§4.2 step 5's notion of a run): the length of
the run of consecutive (gap exactly one day) descending days starting at
the head of the list. -/
def leadRun : List Int → Nat
  | [] => 0
  | [_] => 1
  | a :: b :: rest => if a - b = 1 then 1 + leadRun (b :: rest) else 1

/-- Modelled from the spec (§4.2 step 5): the length of the longest run of
consecutive days anywhere in the sequence, as the maximum over every
starting position of the run beginning there. -/
def tailsMax : List Int → Nat
  | [] => 0
  | a :: rest => max (leadRun (a :: rest)) (tailsMax rest)

/-- Modelled from the spec (§4.2 step 4): the number of consecutive
descending pairs whose gap is exactly 1 day before the first gap that is
not 1, starting after the most recent day `prev`. -/
def countLeadingGap1 : Int → List Int → Nat
  | _, [] => 0
  | prev, curr :: rest => if prev - curr = 1 then 1 + countLeadingGap1 curr rest else 0

/-- Modelled from the spec (§4.2 step 4): the current streak over the
descending-sorted days is 0 unless the most recent day is today or
yesterday; if so it is 1 plus the leading count of 1-day gaps. -/
def specCurrentStreak (today : Int) : List Int → Nat
  | [] => 0
  | d0 :: rest =>
    if d0 = today ∨ d0 = today - 1 then 1 + countLeadingGap1 d0 rest else 0

/-- Modelled from the spec (§4.2): the whole reference algorithm.
Step 1: the empty set yields `{0, 0, false}`; step 2: `hasUploadedToday`
is membership of today; step 3: sort descending; steps 4-5 as above. -/
def specCalculateStreaks (today : Int) (uploadDates : List Int) : StreakResult :=
  if uploadDates.isEmpty then ⟨0, 0, false⟩
  else
    ⟨specCurrentStreak today (sortDesc uploadDates),
     tailsMax (sortDesc uploadDates),
     decide (today ∈ uploadDates)⟩

/-- A nonempty list of days all of whose adjacent gaps are exactly one day
(a "run of consecutive days" in descending order). -/
def consecRun : List Int → Bool
  | [] => true
  | [_] => true
  | a :: b :: rest => (a - b == 1) && consecRun (b :: rest)

/-! ## Basic facts about the sort -/

theorem sortDesc_sorted (l : List Int) : (sortDesc l).Sorted (· ≥ ·) :=
  List.sorted_insertionSort _ l

theorem sortDesc_perm (l : List Int) : sortDesc l ~ l :=
  List.perm_insertionSort _ l

theorem sortDesc_eq_of_perm {l₁ l₂ : List Int} (h : l₁ ~ l₂) :
    sortDesc l₁ = sortDesc l₂ :=
  List.eq_of_perm_of_sorted ((sortDesc_perm l₁).trans (h.trans (sortDesc_perm l₂).symm))
    (sortDesc_sorted l₁) (sortDesc_sorted l₂)

theorem sortDesc_ne_nil {l : List Int} (h : l ≠ []) : sortDesc l ≠ [] := by
  intro hs
  have hp := sortDesc_perm l
  rw [hs] at hp
  exact h hp.symm.eq_nil

theorem mem_sortDesc {l : List Int} {a : Int} : a ∈ sortDesc l ↔ a ∈ l :=
  (sortDesc_perm l).mem_iff

theorem sortDesc_cons_of_ge {l : List Int} {a : Int} (h : ∀ x ∈ l, x ≤ a) :
    sortDesc (a :: l) = a :: sortDesc l := by
  show List.orderedInsert _ a (List.insertionSort _ l) = a :: List.insertionSort _ l
  cases hs : List.insertionSort (· ≥ ·) l with
  | nil => rfl
  | cons y t =>
    have hy : y ∈ l := (List.perm_insertionSort (· ≥ ·) l).mem_iff.mp (hs ▸ List.mem_cons_self y t)
    simp [List.orderedInsert, h y hy]

theorem sortDesc_head_of_max {l : List Int} {m : Int} (hm : m ∈ l)
    (hmax : ∀ x ∈ l, x ≤ m) : ∃ t, sortDesc l = m :: t := by
  cases hs : sortDesc l with
  | nil => exact absurd hs (sortDesc_ne_nil (List.ne_nil_of_mem hm))
  | cons y t =>
    have hy : y ∈ l := mem_sortDesc.mp (hs ▸ List.mem_cons_self y t)
    have hmy : m ∈ y :: t := hs ▸ mem_sortDesc.mpr hm
    have hym : y = m := by
      rcases List.mem_cons.mp hmy with h | h
      · exact h.symm
      · have := List.rel_of_sorted_cons (hs ▸ sortDesc_sorted l) m h
        exact le_antisymm (hmax y hy) this
    subst hym
    exact ⟨t, rfl⟩

/-! ## Equivalence of the two longest-streak computations -/

theorem leadRun_pos (a : Int) (l : List Int) : 1 ≤ leadRun (a :: l) := by
  cases l with
  | nil => simp [leadRun]
  | cons b rest =>
    by_cases h : a - b = 1 <;> simp [leadRun, h]

theorem leadRun_eq_walkCurrent (l : List Int) :
    ∀ a, leadRun (a :: l) = 1 + walkCurrent a l := by
  induction l with
  | nil => intro a; simp [leadRun, walkCurrent]
  | cons b rest ih =>
    intro a
    by_cases h : a - b = 1
    · simp [leadRun, walkCurrent, h, ih b]
    · simp [leadRun, walkCurrent, h]

theorem walkCurrent_eq_countLeadingGap1 (l : List Int) :
    ∀ a, walkCurrent a l = countLeadingGap1 a l := by
  induction l with
  | nil => intro a; rfl
  | cons b rest ih =>
    intro a
    by_cases h : a - b = 1 <;> simp [walkCurrent, countLeadingGap1, h, ih b]

/-- The "run in progress" view of the longest-streak scan: the maximum run
length reachable from position `prev` with a current run of length `temp`. -/
def runMax : Int → Nat → List Int → Nat
  | _, temp, [] => temp
  | prev, temp, curr :: rest =>
    if prev - curr = 1 then runMax curr (temp + 1) rest
    else max temp (runMax curr 1 rest)

theorem le_runMax (l : List Int) : ∀ prev temp, temp ≤ runMax prev temp l := by
  induction l with
  | nil => intro _ _; exact le_refl _
  | cons c rest ih =>
    intro prev temp
    by_cases h : prev - c = 1
    · simpa [runMax, h] using le_trans (Nat.le_succ temp) (ih c (temp + 1))
    · simp [runMax, h]

theorem longestScan_eq_max_runMax (l : List Int) :
    ∀ prev temp longest, 1 ≤ temp → temp ≤ longest →
      longestScan prev temp longest l = max longest (runMax prev temp l) := by
  induction l with
  | nil =>
    intro prev temp longest _ h2
    simp [longestScan, runMax, Nat.max_eq_left h2]
  | cons c rest ih =>
    intro prev temp longest h1 h2
    by_cases h : prev - c = 1
    · have hrun : temp + 1 ≤ runMax c (temp + 1) rest := le_runMax rest c (temp + 1)
      have : max (max longest (temp + 1)) (runMax c (temp + 1) rest)
          = max longest (runMax c (temp + 1) rest) := by
        rw [Nat.max_assoc, Nat.max_eq_right hrun]
      simp only [longestScan, runMax, h, if_pos]
      rw [ih c (temp + 1) (max longest (temp + 1)) (le_trans h1 (Nat.le_succ temp))
        (le_max_right _ _), this]
    · simp only [longestScan, runMax, h, if_neg, ite_false]
      rw [ih c 1 longest (le_refl 1) (le_trans h1 h2)]
      rw [← Nat.max_assoc, Nat.max_eq_left h2]

theorem runMax_eq (l : List Int) :
    ∀ prev k, runMax prev (k + 1) l = max (k + leadRun (prev :: l)) (tailsMax l) := by
  induction l with
  | nil => intro prev k; simp [runMax, leadRun, tailsMax]
  | cons c rest ih =>
    intro prev k
    by_cases h : prev - c = 1
    · have step : leadRun (prev :: c :: rest) = 1 + leadRun (c :: rest) := by
        simp [leadRun, h]
      rw [show runMax prev (k + 1) (c :: rest) = runMax c (k + 1 + 1) rest by
            simp [runMax, h],
          ih c (k + 1), step]
      have habs : leadRun (c :: rest) ≤ k + 1 + leadRun (c :: rest) := by omega
      show max (k + 1 + leadRun (c :: rest)) (tailsMax rest)
          = max (k + (1 + leadRun (c :: rest))) (tailsMax (c :: rest))
      rw [show tailsMax (c :: rest) = max (leadRun (c :: rest)) (tailsMax rest) from rfl]
      rw [show k + (1 + leadRun (c :: rest)) = k + 1 + leadRun (c :: rest) by omega]
      rw [← Nat.max_assoc, Nat.max_eq_left habs]
    · have step : leadRun (prev :: c :: rest) = 1 := by simp [leadRun, h]
      rw [show runMax prev (k + 1) (c :: rest) = max (k + 1) (runMax c 1 rest) by
            simp [runMax, h],
          show runMax c 1 rest = runMax c (0 + 1) rest by rfl,
          ih c 0, step]
      show max (k + 1) (max (0 + leadRun (c :: rest)) (tailsMax rest))
          = max (k + 1) (tailsMax (c :: rest))
      rw [Nat.zero_add]
      rfl

/-- The scan in the code computes exactly the spec's longest run. -/
theorem longestScan_eq_tailsMax (d0 : Int) (l : List Int) :
    longestScan d0 1 1 l = tailsMax (d0 :: l) := by
  rw [longestScan_eq_max_runMax l d0 1 1 (le_refl 1) (le_refl 1),
      show (1 : Nat) = 0 + 1 by rfl, runMax_eq l d0 0]
  show max (0 + 1) (max (0 + leadRun (d0 :: l)) (tailsMax l)) = tailsMax (d0 :: l)
  rw [Nat.zero_add, Nat.zero_add]
  have h1 : 1 ≤ leadRun (d0 :: l) := leadRun_pos d0 l
  rw [show tailsMax (d0 :: l) = max (leadRun (d0 :: l)) (tailsMax l) from rfl]
  exact Nat.max_eq_right (le_trans h1 (le_max_left _ _))

example : calculateStreaks 2 [2, 0, 1] = ⟨3, 3, true⟩ := by decide
example : calculateStreaks 2 [] = ⟨0, 0, false⟩ := by decide
example : calculateStreaks 10 [9, 8] = ⟨2, 2, false⟩ := by decide
example : calculateStreaks 10 [10, 5] = ⟨1, 1, true⟩ := by decide
example : specCalculateStreaks 2 [2, 0, 1] = ⟨3, 3, true⟩ := by decide

/-! ## Claim theorems about the streak calculator -/

theorem calculateStreaks_eq (today : Int) {l : List Int} {d0 : Int} {rest : List Int}
    (h : sortDesc l = d0 :: rest) :
    calculateStreaks today l =
      ⟨if d0 = today ∨ d0 = today - 1 then 1 + walkCurrent d0 rest else 0,
       longestScan d0 1 1 rest,
       decide (today ∈ l)⟩ := by
  have hne : l ≠ [] := by
    intro he
    subst he
    exact List.cons_ne_nil d0 rest (h.symm)
  unfold calculateStreaks
  rw [if_neg (by simpa [List.isEmpty_iff] using hne), h]
  rfl

theorem leadRun_le_tailsMax (a : Int) (l : List Int) :
    leadRun (a :: l) ≤ tailsMax (a :: l) :=
  le_max_left _ _

theorem sortDesc_cons_exists {l : List Int} (hne : l ≠ []) :
    ∃ d0 rest, sortDesc l = d0 :: rest := by
  cases hs : sortDesc l with
  | nil => exact absurd hs (sortDesc_ne_nil hne)
  | cons a t => exact ⟨a, t, rfl⟩

theorem specCalculateStreaks_eq (today : Int) {l : List Int} {d0 : Int} {rest : List Int}
    (h : sortDesc l = d0 :: rest) :
    specCalculateStreaks today l =
      ⟨specCurrentStreak today (d0 :: rest), tailsMax (d0 :: rest), decide (today ∈ l)⟩ := by
  have hne : l ≠ [] := by
    intro he
    subst he
    exact List.cons_ne_nil d0 rest (h.symm)
  unfold specCalculateStreaks
  rw [if_neg (by simpa [List.isEmpty_iff] using hne), h]

/-- C1: for every list of distinct upload days, `calculateStreaks` agrees
with the §4.2 reference algorithm `specCalculateStreaks`: same
`hasUploadedToday`, same anchored current streak, and a longest streak
equal to the longest run of consecutive days anywhere in the sorted
sequence. -/
theorem calculateStreaks_matches_spec (today : Int) (l : List Int) (_hnd : l.Nodup) :
    calculateStreaks today l = specCalculateStreaks today l := by
  by_cases hne : l = []
  · subst hne; rfl
  · obtain ⟨d0, rest, h⟩ := sortDesc_cons_exists hne
    rw [calculateStreaks_eq today h, specCalculateStreaks_eq today h,
      longestScan_eq_tailsMax, walkCurrent_eq_countLeadingGap1]
    rfl

theorem calculateStreaks_matches_spec_witness :
    ([2, 0, 1] : List Int).Nodup ∧
      calculateStreaks 2 [2, 0, 1] = specCalculateStreaks 2 [2, 0, 1] :=
  ⟨by decide, calculateStreaks_matches_spec 2 [2, 0, 1] (by decide)⟩

/-- C8: for every non-empty list of distinct upload days the longest
streak is at least 1 and the current streak never exceeds it. -/
theorem calculateStreaks_bounds (today : Int) (l : List Int) (hne : l ≠ [])
    (_hnd : l.Nodup) :
    1 ≤ (calculateStreaks today l).longestStreak ∧
      (calculateStreaks today l).currentStreak ≤ (calculateStreaks today l).longestStreak := by
  obtain ⟨d0, rest, h⟩ := sortDesc_cons_exists hne
  rw [calculateStreaks_eq today h]
  simp only [StreakResult.currentStreak, StreakResult.longestStreak]
  rw [longestScan_eq_tailsMax]
  constructor
  · exact le_trans (leadRun_pos d0 rest) (leadRun_le_tailsMax d0 rest)
  · by_cases ha : d0 = today ∨ d0 = today - 1
    · rw [if_pos ha, ← leadRun_eq_walkCurrent]
      exact leadRun_le_tailsMax d0 rest
    · rw [if_neg ha]
      exact Nat.zero_le _

theorem calculateStreaks_bounds_witness :
    (([5, 3] : List Int) ≠ [] ∧ ([5, 3] : List Int).Nodup) ∧
      1 ≤ (calculateStreaks 9 [5, 3]).longestStreak ∧
        (calculateStreaks 9 [5, 3]).currentStreak ≤ (calculateStreaks 9 [5, 3]).longestStreak :=
  ⟨⟨by decide, by decide⟩, calculateStreaks_bounds 9 [5, 3] (by decide) (by decide)⟩

/-- C10: `calculateStreaks` depends only on the set of dates supplied:
duplicate-free permutations of the input produce identical results. -/
theorem calculateStreaks_perm_invariant (today : Int) (l₁ l₂ : List Int)
    (_hnd : l₁.Nodup) (hp : l₁ ~ l₂) :
    calculateStreaks today l₁ = calculateStreaks today l₂ := by
  have hd : decide (today ∈ l₁) = decide (today ∈ l₂) := decide_eq_decide.mpr hp.mem_iff
  by_cases hne : l₁ = []
  · subst hne
    rw [hp.symm.eq_nil]
  · have hs : sortDesc l₁ = sortDesc l₂ := sortDesc_eq_of_perm hp
    obtain ⟨d0, rest, h1⟩ := sortDesc_cons_exists hne
    have h2 : sortDesc l₂ = d0 :: rest := by rw [← hs, h1]
    rw [calculateStreaks_eq today h1, calculateStreaks_eq today h2, hd]

theorem calculateStreaks_perm_invariant_witness :
    ([4, 6, 5] : List Int).Nodup ∧ ([4, 6, 5] : List Int) ~ [6, 5, 4] ∧
      calculateStreaks 6 [4, 6, 5] = calculateStreaks 6 [6, 5, 4] :=
  ⟨by decide, by decide, calculateStreaks_perm_invariant 6 [4, 6, 5] [6, 5, 4]
    (by decide) (by decide)⟩

/-! ## Session completion ("sessions" table, keyed UNIQUE(user_id, session_date)) -/

/-- A row of the `sessions` table. -/
structure SessionRow where
  userId : Int
  sessionDate : Int
  completedAt : Int
deriving DecidableEq, Repr

/-- The `(user_id, session_date)` key conflict test of the UNIQUE
constraint. -/
def sessionMatches (u d : Int) (r : SessionRow) : Bool :=
  r.userId == u && r.sessionDate == d

namespace Pg

/-- `markSessionComplete` of src/unnamed/part_000 lines 105-116:
`INSERT ... ON CONFLICT (user_id, session_date) DO UPDATE SET
completed_at = NOW()`; `now` stands for `NOW()`. -/
def markSessionComplete (u d now : Int) (s : List SessionRow) : List SessionRow :=
  if s.any (sessionMatches u d) then
    s.map (fun r => if sessionMatches u d r then ⟨u, d, now⟩ else r)
  else ⟨u, d, now⟩ :: s

end Pg

namespace Sqlite

/-- `markSessionComplete` of src/unnamed/part_001 lines 87-105:
`INSERT OR REPLACE INTO sessions (user_id, session_date) VALUES (?, ?)` —
the conflicting row is deleted and the new row inserted. -/
def markSessionComplete (u d now : Int) (s : List SessionRow) : List SessionRow :=
  ⟨u, d, now⟩ :: s.filter (fun r => !sessionMatches u d r)

end Sqlite

theorem sessionMatches_self (u d now : Int) : sessionMatches u d ⟨u, d, now⟩ = true := by
  simp [sessionMatches]

theorem pg_mark_idem (u d n₁ n₂ : Int) (s : List SessionRow) :
    Pg.markSessionComplete u d n₂ (Pg.markSessionComplete u d n₁ s) =
      Pg.markSessionComplete u d n₂ s := by
  by_cases h : s.any (sessionMatches u d) = true
  · have e1 : Pg.markSessionComplete u d n₁ s =
        s.map (fun r => if sessionMatches u d r then ⟨u, d, n₁⟩ else r) := by
      unfold Pg.markSessionComplete
      rw [if_pos h]
    have hany : (s.map (fun r => if sessionMatches u d r then (⟨u, d, n₁⟩ : SessionRow) else r)).any
        (sessionMatches u d) = true := by
      rw [List.any_eq_true] at h ⊢
      obtain ⟨r, hr, hm⟩ := h
      exact ⟨if sessionMatches u d r then ⟨u, d, n₁⟩ else r, List.mem_map_of_mem _ hr, by
        rw [if_pos hm]; exact sessionMatches_self u d n₁⟩
    have e2 : Pg.markSessionComplete u d n₂
        (s.map (fun r => if sessionMatches u d r then ⟨u, d, n₁⟩ else r)) =
        (s.map (fun r => if sessionMatches u d r then ⟨u, d, n₁⟩ else r)).map
          (fun r => if sessionMatches u d r then ⟨u, d, n₂⟩ else r) := by
      unfold Pg.markSessionComplete
      rw [if_pos hany]
    have e3 : Pg.markSessionComplete u d n₂ s =
        s.map (fun r => if sessionMatches u d r then ⟨u, d, n₂⟩ else r) := by
      unfold Pg.markSessionComplete
      rw [if_pos h]
    rw [e1, e2, e3, List.map_map]
    apply List.map_congr_left
    intro r _
    by_cases hm : sessionMatches u d r = true
    · simp only [Function.comp_apply, if_pos hm, if_pos (sessionMatches_self u d n₁)]
    · simp only [Function.comp_apply, if_neg hm]
  · have hall : ∀ r ∈ s, sessionMatches u d r = false := by
      intro r hr
      cases hc : sessionMatches u d r
      · rfl
      · exact absurd (List.any_eq_true.mpr ⟨r, hr, hc⟩) h
    have e1 : Pg.markSessionComplete u d n₁ s = ⟨u, d, n₁⟩ :: s := by
      unfold Pg.markSessionComplete
      rw [if_neg h]
    have hany : ((⟨u, d, n₁⟩ : SessionRow) :: s).any (sessionMatches u d) = true := by
      simp [sessionMatches_self]
    have e2 : Pg.markSessionComplete u d n₂ ((⟨u, d, n₁⟩ : SessionRow) :: s) =
        ((⟨u, d, n₁⟩ : SessionRow) :: s).map
          (fun r => if sessionMatches u d r then ⟨u, d, n₂⟩ else r) := by
      unfold Pg.markSessionComplete
      rw [if_pos hany]
    have e3 : Pg.markSessionComplete u d n₂ s = ⟨u, d, n₂⟩ :: s := by
      unfold Pg.markSessionComplete
      rw [if_neg h]
    have hid : s.map (fun r => if sessionMatches u d r then (⟨u, d, n₂⟩ : SessionRow) else r)
        = s := by
      calc s.map (fun r => if sessionMatches u d r then (⟨u, d, n₂⟩ : SessionRow) else r)
          = s.map id := List.map_congr_left (fun r hr => by rw [hall r hr]; rfl)
        _ = s := List.map_id s
    rw [e1, e2, e3, List.map_cons, if_pos (sessionMatches_self u d n₁), hid]

theorem sqlite_mark_idem (u d n₁ n₂ : Int) (s : List SessionRow) :
    Sqlite.markSessionComplete u d n₂ (Sqlite.markSessionComplete u d n₁ s) =
      Sqlite.markSessionComplete u d n₂ s := by
  unfold Sqlite.markSessionComplete
  rw [List.filter_cons]
  simp only [sessionMatches_self, Bool.not_true, List.filter_filter, reduceIte]
  congr 1
  apply List.filter_congr
  intro r _
  cases sessionMatches u d r <;> rfl

/-- C7: the "ensure session complete" operation is idempotent in both
variants: a second `markSessionComplete` for the same user and day leaves
the same persisted sessions table as a single call. -/
theorem markSessionComplete_idempotent (u d n₁ n₂ : Int) (s : List SessionRow) :
    Pg.markSessionComplete u d n₂ (Pg.markSessionComplete u d n₁ s) =
        Pg.markSessionComplete u d n₂ s ∧
      Sqlite.markSessionComplete u d n₂ (Sqlite.markSessionComplete u d n₁ s) =
        Sqlite.markSessionComplete u d n₂ s :=
  ⟨pg_mark_idem u d n₁ n₂ s, sqlite_mark_idem u d n₁ n₂ s⟩

/-! ## The incremental stats cache (src/database.js) -/

namespace Incr

/-- A row of the `stats` table of src/database.js. -/
structure StatsRow where
  currentStreak : Int
  longestStreak : Int
  totalUploads : Int
  lastUploadDate : Int
deriving DecidableEq, Repr

/-- The stats update inside `saveUpload` (src/database.js lines 43-77):
insert `(1, 1, 1, today)` for a new user, otherwise bump `totalUploads`,
leave the streaks alone when `lastUploadDate === today`, increment
`currentStreak` when it is yesterday and reset it to 1 otherwise, raising
`longestStreak` when overtaken. -/
def saveUpload (today : Int) : Option StatsRow → Option StatsRow
  | none => some ⟨1, 1, 1, today⟩
  | some r =>
    if r.lastUploadDate = today then
      some ⟨r.currentStreak, r.longestStreak, r.totalUploads + 1, today⟩
    else
      let cur := if r.lastUploadDate = today - 1 then r.currentStreak + 1 else 1
      let lng := if cur > r.longestStreak then cur else r.longestStreak
      some ⟨cur, lng, r.totalUploads + 1, today⟩

/-- A user's whole upload history processed through the incremental
`saveUpload`, starting from no stats row. -/
def runUploads (days : List Int) : Option StatsRow :=
  days.foldl (fun st d => saveUpload d st) none

/-- `getUserStats` of src/database.js lines 79-85 restricted to the two
streak fields: the persisted row, or zeros when absent. -/
def getUserStats : Option StatsRow → Int × Int
  | none => (0, 0)
  | some r => (r.currentStreak, r.longestStreak)

end Incr

theorem runUploads_append_singleton (l : List Int) (d : Int) :
    Incr.runUploads (l ++ [d]) = Incr.saveUpload d (Incr.runUploads l) := by
  unfold Incr.runUploads
  rw [List.foldl_append]
  rfl

theorem sorted_append_bound {ds : List Int} {m : Int}
    (h : (ds ++ [m]).Sorted (· ≤ ·)) :
    ds.Sorted (· ≤ ·) ∧ ∀ x ∈ ds, x ≤ m := by
  obtain ⟨h1, _, h3⟩ := List.pairwise_append.mp h
  exact ⟨h1, fun x hx => h3 x hx m (List.mem_singleton_self m)⟩

theorem sortDedup_append_mem {A : List Int} {m : Int} (hm : m ∈ A) :
    sortDesc (A ++ [m]).dedup = sortDesc A.dedup := by
  have hperm : (A ++ [m]).dedup ~ A.dedup := by
    have h1 : (A ++ [m]) ~ (m :: A) := List.perm_append_singleton m A
    have h2 := h1.dedup
    rw [List.dedup_cons_of_mem hm] at h2
    exact h2
  exact sortDesc_eq_of_perm hperm

theorem sortDedup_append_not_mem {A : List Int} {m : Int} (hm : m ∉ A)
    (hb : ∀ x ∈ A, x ≤ m) :
    sortDesc (A ++ [m]).dedup = m :: sortDesc A.dedup := by
  have hperm : (A ++ [m]).dedup ~ (m :: A.dedup) := by
    have h1 : (A ++ [m]) ~ (m :: A) := List.perm_append_singleton m A
    have h2 := h1.dedup
    rw [List.dedup_cons_of_not_mem hm] at h2
    exact h2
  rw [sortDesc_eq_of_perm hperm,
    sortDesc_cons_of_ge (fun x hx => hb x (List.mem_dedup.mp hx))]

theorem int_ite_max (a b : Nat) :
    (if (b : Int) < (a : Int) then (a : Int) else (b : Int)) = ((max a b : Nat) : Int) := by
  by_cases h : b < a
  · rw [if_pos (by exact_mod_cast h), Nat.max_eq_left (le_of_lt h)]
  · rw [if_neg (by exact_mod_cast h), Nat.max_eq_right (by omega)]

theorem incr_invariant :
    ∀ (ds : List Int) (m : Int), ((ds ++ [m]).Sorted (· ≤ ·)) →
      ∃ t : Int, Incr.runUploads (ds ++ [m]) =
        some ⟨(leadRun (sortDesc (ds ++ [m]).dedup) : Int),
              (tailsMax (sortDesc (ds ++ [m]).dedup) : Int), t, m⟩ := by
  intro ds
  induction ds using List.reverseRecOn with
  | nil =>
    intro m _
    refine ⟨1, ?_⟩
    simp [Incr.runUploads, Incr.saveUpload, sortDesc, List.insertionSort, leadRun, tailsMax]
  | append_singleton ds' m' ih =>
    intro m h
    have hA := sorted_append_bound h
    have hA' := sorted_append_bound hA.1
    have hm'A : m' ∈ ds' ++ [m'] := List.mem_append_right _ (List.mem_singleton_self m')
    have hm'm : m' ≤ m := hA.2 m' hm'A
    have hAmax : ∀ x ∈ ds' ++ [m'], x ≤ m' := by
      intro x hx
      rcases List.mem_append.mp hx with hx | hx
      · exact hA'.2 x hx
      · rw [List.mem_singleton.mp hx]
    obtain ⟨t', hrun'⟩ := ih m' hA.1
    rw [runUploads_append_singleton, hrun']
    by_cases hcase : m' = m
    · subst hcase
      rw [sortDedup_append_mem hm'A]
      exact ⟨t' + 1, by simp [Incr.saveUpload]⟩
    · have hmA : m ∉ ds' ++ [m'] := by
        intro hmem
        exact hcase (le_antisymm hm'm (hAmax m hmem))
      have hS : sortDesc ((ds' ++ [m']) ++ [m]).dedup
          = m :: sortDesc (ds' ++ [m']).dedup :=
        sortDedup_append_not_mem hmA (fun x hx => le_trans (hAmax x hx) hm'm)
      obtain ⟨rest', hS'⟩ := sortDesc_head_of_max
        (List.mem_dedup.mpr hm'A) (fun x hx => hAmax x (List.mem_dedup.mp hx))
      rw [hS, hS']
      have htails : tailsMax (m :: m' :: rest')
          = max (leadRun (m :: m' :: rest')) (tailsMax (m' :: rest')) := rfl
      by_cases hy : m' = m - 1
      · have hgap : m - m' = 1 := by omega
        have hlead : leadRun (m :: m' :: rest') = 1 + leadRun (m' :: rest') := by
          simp [leadRun, hgap]
        refine ⟨t' + 1, ?_⟩
        simp only [Incr.saveUpload]
        rw [if_neg hcase, if_pos hy]
        simp only [Option.some.injEq, Incr.StatsRow.mk.injEq, and_true]
        refine ⟨?_, ?_⟩
        · rw [hlead]
          push_cast
          ring
        · rw [htails, hlead]
          by_cases hc : tailsMax (m' :: rest') < 1 + leadRun (m' :: rest')
          · rw [if_pos (by omega), Nat.max_eq_left (by omega)]
            push_cast
            ring
          · rw [if_neg (by omega), Nat.max_eq_right (by omega)]
      · have hgap : m - m' ≠ 1 := by omega
        have hlead : leadRun (m :: m' :: rest') = 1 := by
          simp [leadRun, hgap]
        refine ⟨t' + 1, ?_⟩
        simp only [Incr.saveUpload]
        rw [if_neg hcase, if_neg hy]
        simp only [Option.some.injEq, Incr.StatsRow.mk.injEq, and_true]
        refine ⟨?_, ?_⟩
        · rw [hlead]
          rfl
        · rw [htails, hlead]
          by_cases hc : tailsMax (m' :: rest') < 1
          · rw [if_pos (by omega), Nat.max_eq_left (by omega)]
            rfl
          · rw [if_neg (by omega), Nat.max_eq_right (by omega)]

/-- C2 counterexample: one upload on day 0 followed by a stats read on
day 2. The incremental variant still reports `currentStreak = 1` (it never
re-anchors at read time) while recomputing from the distinct-date history
reports 0, so the two variants do not compute the same streaks. -/
theorem incr_recompute_disagree :
    (Incr.getUserStats (Incr.runUploads [0])).1 ≠
      ((calculateStreaks 2 (([0] : List Int).dedup)).currentStreak : Int) := by
  decide

/-- C2 (amended): for every chronologically ordered upload sequence the
incremental variant of src/database.js agrees with the recompute variant's
`calculateStreaks` on `longestStreak` for a read on any day, and on
`currentStreak` when the read happens on the day of the last upload or on
the following day. -/
theorem incr_matches_recompute (ds : List Int) (m readDay : Int)
    (hsorted : ((ds ++ [m]).Sorted (· ≤ ·)))
    (hread : readDay = m ∨ readDay = m + 1) :
    (Incr.getUserStats (Incr.runUploads (ds ++ [m]))).1 =
        ((calculateStreaks readDay ((ds ++ [m]).dedup)).currentStreak : Int) ∧
      ∀ anyRead : Int,
        (Incr.getUserStats (Incr.runUploads (ds ++ [m]))).2 =
          ((calculateStreaks anyRead ((ds ++ [m]).dedup)).longestStreak : Int) := by
  obtain ⟨t, hrun⟩ := incr_invariant ds m hsorted
  have hbound : ∀ x ∈ (ds ++ [m]).dedup, x ≤ m := by
    intro x hx
    rcases List.mem_append.mp (List.mem_dedup.mp hx) with h | h
    · exact (sorted_append_bound hsorted).2 x h
    · rw [List.mem_singleton.mp h]
  obtain ⟨rest, hS⟩ := sortDesc_head_of_max
    (List.mem_dedup.mpr (List.mem_append_right ds (List.mem_singleton_self m))) hbound
  rw [hrun, hS]
  have hanchor : m = readDay ∨ m = readDay - 1 := by
    rcases hread with h | h
    · exact Or.inl h.symm
    · exact Or.inr (by omega)
  constructor
  · rw [calculateStreaks_eq readDay hS]
    simp only [Incr.getUserStats]
    rw [if_pos hanchor, ← leadRun_eq_walkCurrent]
  · intro anyRead
    rw [calculateStreaks_eq anyRead hS]
    simp only [Incr.getUserStats]
    rw [longestScan_eq_tailsMax]

theorem incr_matches_recompute_witness :
    (((([0, 1] : List Int) ++ [2]).Sorted (· ≤ ·)) ∧ ((2 : Int) = 2 ∨ (2 : Int) = 2 + 1)) ∧
      (Incr.getUserStats (Incr.runUploads (([0, 1] : List Int) ++ [2]))).1 =
          ((calculateStreaks 2 ((([0, 1] : List Int) ++ [2]).dedup)).currentStreak : Int) ∧
        (Incr.getUserStats (Incr.runUploads (([0, 1] : List Int) ++ [2]))).2 =
          ((calculateStreaks 7 ((([0, 1] : List Int) ++ [2]).dedup)).longestStreak : Int) :=
  ⟨⟨by decide, Or.inl rfl⟩,
   (incr_matches_recompute [0, 1] 2 2 (by decide) (Or.inl rfl)).1,
   (incr_matches_recompute [0, 1] 2 2 (by decide) (Or.inl rfl)).2 7⟩

/-! ## The recompute variant's storage (uploads + sessions tables) -/

/-- A row of the `uploads` table. -/
structure UploadRow where
  userId : Int
  username : String
  fileId : String
  uploadDate : Int
deriving DecidableEq, Repr

/-- The persisted database of the recompute variant: the `uploads` and
`sessions` tables. -/
structure DB where
  uploads : List UploadRow
  sessions : List SessionRow
deriving DecidableEq, Repr

/-- The `UserStats` read model returned by `getUserStats`. -/
structure UserStats where
  currentStreak : Nat
  longestStreak : Nat
  totalUploads : Nat
  recentHistory : List (Int × Nat)
  hasUploadedToday : Bool
deriving DecidableEq, Repr

namespace Sqlite

/-- `saveUpload` of src/unnamed/part_001 lines 44-63: insert an upload row
dated today. -/
def saveUpload (u : Int) (username fileId : String) (today : Int) (db : DB) : DB :=
  { db with uploads := db.uploads ++ [⟨u, username, fileId, today⟩] }

/-- `hasUploadedToday` of src/unnamed/part_001 lines 65-84:
`COUNT(*) > 0` over the user's uploads dated today. -/
def hasUploadedToday (u today : Int) (db : DB) : Bool :=
  db.uploads.any (fun r => r.userId == u && r.uploadDate == today)

/-- `getUserStats` of src/unnamed/part_001 lines 107-165: streaks
recomputed from the distinct upload dates, the total upload count, and the
most recent 30 per-day counts. -/
def getUserStats (u today : Int) (db : DB) : UserStats :=
  let dates := (db.uploads.filter (fun r => r.userId == u)).map (fun r => r.uploadDate)
  let distinct := dates.dedup
  let sr := calculateStreaks today distinct
  { currentStreak := sr.currentStreak,
    longestStreak := sr.longestStreak,
    totalUploads := dates.length,
    recentHistory := ((sortDesc distinct).take 30).map
      (fun d => (d, (dates.filter (fun x => x == d)).length)),
    hasUploadedToday := sr.hasUploadedToday }

end Sqlite

/-! ## The timer registry and HTTP handlers of src/index.js -/

/-- One entry of the `activeTimers` map (src/index.js line 174):
`userId -> { duration, startTime, endTime, timeoutId }`. -/
structure TimerInfo where
  duration : Int
  startTime : Int
  endTime : Int
  timeoutId : Nat
deriving DecidableEq, Repr

/-- The in-memory server state: the `activeTimers` map, the set of
`setTimeout` triggers that are scheduled and not yet cleared or fired
(`(timeoutId, userId)` pairs), a counter producing fresh timeout handles,
and the database. -/
structure ServerState where
  activeTimers : List (Int × TimerInfo)
  pending : List (Nat × Int)
  nextTimeoutId : Nat
  db : DB
deriving DecidableEq, Repr

/-- JavaScript truthiness of the request-body values (`!userId`,
`!duration`): absent or zero is falsy, every other integer is truthy. -/
def falsy : Option Int → Bool
  | none => true
  | some v => v == 0

/-- `activeTimers.get(userId)` (with `activeTimers.has` as `isSome`). -/
def lookupTimer (u : Int) (s : ServerState) : Option TimerInfo :=
  (s.activeTimers.find? (fun p => p.1 == u)).map (fun p => p.2)

/-- `clearTimeout(activeTimers.get(u).timeoutId)`: retract the pending
trigger of the user's current timer, if any. -/
def clearUserTimeout (u : Int) (s : ServerState) : List (Nat × Int) :=
  match lookupTimer u s with
  | some info => s.pending.filter (fun p => p.1 != info.timeoutId)
  | none => s.pending

inductive StartResult
  | validationError
  | ok (startTime endTime : Int)
deriving DecidableEq, Repr

inductive CancelResult
  | validationError
  | success
deriving DecidableEq, Repr

inductive UploadResult
  | noFile
  | validationError
  | ok (stats : UserStats)
deriving DecidableEq, Repr

inductive DoneResult
  | validationError
  | preconditionFailed
  | ok (stats : UserStats)
deriving DecidableEq, Repr

/-- `POST /start-timer` (src/index.js lines 280-329): reject falsy
`userId`/`duration`; otherwise clear any existing timer's pending trigger,
schedule a fresh completion trigger `duration` minutes out, and store the
new `TimerState` (Map.set replaces the old entry). -/
def postStartTimer (userId duration : Option Int) (now : Int) (s : ServerState) :
    ServerState × StartResult :=
  if falsy userId || falsy duration then (s, .validationError)
  else
    ({ activeTimers := (userId.getD 0,
         ⟨duration.getD 0, now, now + duration.getD 0 * 60 * 1000, s.nextTimeoutId⟩) ::
         s.activeTimers.filter (fun p => p.1 != userId.getD 0),
       pending := (s.nextTimeoutId, userId.getD 0) :: clearUserTimeout (userId.getD 0) s,
       nextTimeoutId := s.nextTimeoutId + 1,
       db := s.db }, .ok now (now + duration.getD 0 * 60 * 1000))

/-- `POST /cancel-timer` (src/index.js lines 365-387): if a timer is
present clear its trigger and delete the entry; always answer success.
The database is never touched. -/
def postCancelTimer (userId : Option Int) (s : ServerState) :
    ServerState × CancelResult :=
  if falsy userId then (s, .validationError)
  else
    match lookupTimer (userId.getD 0) s with
    | some info =>
        ({ s with activeTimers := s.activeTimers.filter (fun p => p.1 != userId.getD 0),
                  pending := s.pending.filter (fun p => p.1 != info.timeoutId) }, .success)
    | none => (s, .success)

/-- A scheduled trigger `(tid, u)` fires: only possible while it is still
pending; the callback (src/index.js lines 299-313) notifies the user and
deletes the user's `activeTimers` entry. -/
def fireTrigger (tid : Nat) (u : Int) (s : ServerState) : ServerState :=
  if (tid, u) ∈ s.pending then
    { s with pending := s.pending.filter (fun p => p.1 != tid),
             activeTimers := s.activeTimers.filter (fun p => p.1 != u) }
  else s

/-- The database state after the upload handler's two storage calls:
`saveUpload` followed by `markSessionComplete`. -/
def uploadedDB (u : Int) (fileId : String) (today now : Int) (db : DB) : DB :=
  { uploads := (Sqlite.saveUpload u "WebApp User" fileId today db).uploads,
    sessions := Sqlite.markSessionComplete u today now
      (Sqlite.saveUpload u "WebApp User" fileId today db).sessions }

/-- `POST /upload` (src/index.js lines 390-427): reject a missing file or
falsy userId; otherwise `saveUpload`, then `markSessionComplete`, then
cancel any running timer inline (clearTimeout + Map.delete), then return
fresh stats. -/
def postUpload (userId : Option Int) (hasFile : Bool) (fileId : String)
    (today now : Int) (s : ServerState) : ServerState × UploadResult :=
  if !hasFile then (s, .noFile)
  else if falsy userId then (s, .validationError)
  else
    ({ activeTimers := s.activeTimers.filter (fun p => p.1 != userId.getD 0),
       pending := clearUserTimeout (userId.getD 0) s,
       nextTimeoutId := s.nextTimeoutId,
       db := uploadedDB (userId.getD 0) fileId today now s.db },
     .ok (Sqlite.getUserStats (userId.getD 0) today
       (uploadedDB (userId.getD 0) fileId today now s.db)))

/-- `POST /done` (src/index.js lines 460-493): reject a falsy userId; fail
with the "no upload yet" precondition error, touching nothing, unless the
user has an upload dated today; otherwise mark the session complete and
return fresh stats. -/
def postDone (userId : Option Int) (today now : Int) (s : ServerState) :
    ServerState × DoneResult :=
  if falsy userId then (s, .validationError)
  else
    if Sqlite.hasUploadedToday (userId.getD 0) today s.db then
      ({ s with db := { s.db with sessions :=
           Sqlite.markSessionComplete (userId.getD 0) today now s.db.sessions } },
       .ok (Sqlite.getUserStats (userId.getD 0) today
         { s.db with sessions :=
             Sqlite.markSessionComplete (userId.getD 0) today now s.db.sessions }))
    else (s, .preconditionFailed)

/-- The operations that can reach the server after a point in time (reads
such as `GET /timer` mutate nothing and are omitted). -/
inductive Op
  | start (userId duration : Option Int) (now : Int)
  | cancel (userId : Option Int)
  | fire (tid : Nat) (userId : Int)
  | upload (userId : Option Int) (hasFile : Bool) (fileId : String) (today now : Int)
  | done (userId : Option Int) (today now : Int)

def applyOp (s : ServerState) : Op → ServerState
  | .start u d n => (postStartTimer u d n s).1
  | .cancel u => (postCancelTimer u s).1
  | .fire tid u => fireTrigger tid u s
  | .upload u hf f t n => (postUpload u hf f t n s).1
  | .done u t n => (postDone u t n s).1

def applyOps (ops : List Op) (s : ServerState) : ServerState :=
  ops.foldl applyOp s

/-- The pending triggers owned by one user. -/
def userTriggers (u : Int) (s : ServerState) : List Nat :=
  (s.pending.filter (fun p => p.2 == u)).map (fun p => p.1)

/-- Per-user consistency between the timer map and the trigger set: a user
with no timer owns no pending trigger, and a user with a timer owns
exactly its trigger. -/
def timersConsistent (u : Int) (s : ServerState) : Prop :=
  match lookupTimer u s with
  | none => userTriggers u s = []
  | some info => userTriggers u s = [info.timeoutId]

/-! ## Facts about the timer registry -/

theorem falsy_some_of_ne {u : Int} (h : u ≠ 0) : falsy (some u) = false := by
  simp [falsy, h]

theorem mem_clearUserTimeout {p : Nat × Int} {u : Int} {s : ServerState}
    (h : p ∈ clearUserTimeout u s) : p ∈ s.pending := by
  unfold clearUserTimeout at h
  cases hl : lookupTimer u s with
  | none => rw [hl] at h; exact h
  | some info => rw [hl] at h; exact List.mem_of_mem_filter h

theorem filter_swap {α : Type} (p q : α → Bool) (l : List α) :
    (l.filter p).filter q = (l.filter q).filter p := by
  rw [List.filter_filter, List.filter_filter]
  apply List.filter_congr
  intro a _
  cases p a <;> cases q a <;> rfl

theorem startTimer_state (u d : Int) (hu : u ≠ 0) (hd : d ≠ 0) (now : Int)
    (s : ServerState) :
    (postStartTimer (some u) (some d) now s).1 =
      { activeTimers := (u, ⟨d, now, now + d * 60 * 1000, s.nextTimeoutId⟩) ::
          s.activeTimers.filter (fun p => p.1 != u),
        pending := (s.nextTimeoutId, u) :: clearUserTimeout u s,
        nextTimeoutId := s.nextTimeoutId + 1,
        db := s.db } := by
  unfold postStartTimer
  rw [falsy_some_of_ne hu, falsy_some_of_ne hd]
  rfl

theorem lookupTimer_cons_self (u : Int) (info : TimerInfo)
    (rest : List (Int × TimerInfo)) (pend : List (Nat × Int)) (nx : Nat) (db : DB) :
    lookupTimer u ⟨(u, info) :: rest, pend, nx, db⟩ = some info := by
  simp [lookupTimer, List.find?]

theorem pending_user_singleton {P : List (Nat × Int)} {u : Int} {t : Nat}
    (h : (P.filter (fun p => p.2 == u)).map (fun p => p.1) = [t]) :
    P.filter (fun p => p.2 == u) = [(t, u)] := by
  cases hX : P.filter (fun p => p.2 == u) with
  | nil => rw [hX] at h; simp at h
  | cons p q =>
    rw [hX] at h
    obtain ⟨p1, p2⟩ := p
    cases q with
    | nil =>
      simp only [List.map_cons, List.map_nil, List.cons.injEq, and_true] at h
      have hpmem : (p1, p2) ∈ P.filter (fun p => p.2 == u) :=
        hX ▸ List.mem_cons_self (p1, p2) []
      have hp2 : p2 = u := by
        have := (List.mem_filter.mp hpmem).2
        exact beq_iff_eq.mp this
      rw [h, hp2]
    | cons r q' => simp at h

theorem clearUserTimeout_user_empty {u : Int} {s : ServerState}
    (hcons : timersConsistent u s) :
    (clearUserTimeout u s).filter (fun p => p.2 == u) = [] := by
  unfold timersConsistent at hcons
  unfold clearUserTimeout
  cases hl : lookupTimer u s with
  | none =>
    rw [hl] at hcons
    exact List.map_eq_nil_iff.mp hcons
  | some info =>
    rw [hl] at hcons
    rw [filter_swap, pending_user_singleton hcons]
    simp

theorem userTriggers_after_start (u d now : Int) (s : ServerState)
    (hu : u ≠ 0) (hd : d ≠ 0) (hcons : timersConsistent u s) :
    userTriggers u (postStartTimer (some u) (some d) now s).1 = [s.nextTimeoutId] := by
  rw [startTimer_state u d hu hd now s]
  unfold userTriggers
  simp only [List.filter_cons]
  rw [show (((s.nextTimeoutId, u) : Nat × Int).2 == u) = true by simp]
  rw [clearUserTimeout_user_empty hcons]
  rfl

theorem consistent_after_start (u d now : Int) (s : ServerState)
    (hu : u ≠ 0) (hd : d ≠ 0) (hcons : timersConsistent u s) :
    timersConsistent u (postStartTimer (some u) (some d) now s).1 := by
  unfold timersConsistent
  have hl : lookupTimer u (postStartTimer (some u) (some d) now s).1
      = some ⟨d, now, now + d * 60 * 1000, s.nextTimeoutId⟩ := by
    rw [startTimer_state u d hu hd now s]
    exact lookupTimer_cons_self u _ _ _ _ _
  rw [hl]
  exact userTriggers_after_start u d now s hu hd hcons

theorem not_mem_map_fst_filter_ne (tid : Nat) (l : List (Nat × Int)) :
    tid ∉ (l.filter (fun p => p.1 != tid)).map (fun p => p.1) := by
  intro hm
  obtain ⟨p, hp, he⟩ := List.mem_map.mp hm
  have := (List.mem_filter.mp hp).2
  rw [he] at this
  simp at this

theorem not_mem_map_fst_of_subset {tid : Nat} {l l' : List (Nat × Int)}
    (h : tid ∉ l.map (fun p => p.1)) (hsub : ∀ p ∈ l', p ∈ l) :
    tid ∉ l'.map (fun p => p.1) := by
  intro hm
  obtain ⟨p, hp, he⟩ := List.mem_map.mp hm
  exact h (List.mem_map.mpr ⟨p, hsub p hp, he⟩)

theorem dead_tid_step (tid : Nat) (op : Op) (s : ServerState)
    (h1 : tid ∉ s.pending.map (fun p => p.1)) (h2 : tid < s.nextTimeoutId) :
    tid ∉ (applyOp s op).pending.map (fun p => p.1) ∧
      tid < (applyOp s op).nextTimeoutId := by
  cases op with
  | start uid dur now =>
    show tid ∉ (postStartTimer uid dur now s).1.pending.map (fun p => p.1) ∧
      tid < (postStartTimer uid dur now s).1.nextTimeoutId
    unfold postStartTimer
    by_cases hv : (falsy uid || falsy dur) = true
    · rw [if_pos hv]
      exact ⟨h1, h2⟩
    · rw [if_neg hv]
      refine ⟨?_, by simpa using Nat.lt_succ_of_lt h2⟩
      intro hm
      simp only [List.map_cons, List.mem_cons] at hm
      rcases hm with h | h
      · omega
      · exact not_mem_map_fst_of_subset h1 (fun p hp => mem_clearUserTimeout hp) h
  | cancel uid =>
    show tid ∉ (postCancelTimer uid s).1.pending.map (fun p => p.1) ∧
      tid < (postCancelTimer uid s).1.nextTimeoutId
    unfold postCancelTimer
    by_cases hv : falsy uid = true
    · rw [if_pos hv]
      exact ⟨h1, h2⟩
    · rw [if_neg hv]
      cases hl : lookupTimer (uid.getD 0) s with
      | none => exact ⟨h1, h2⟩
      | some info =>
        exact ⟨not_mem_map_fst_of_subset h1 (fun p hp => List.mem_of_mem_filter hp), h2⟩
  | fire tid' u' =>
    show tid ∉ (fireTrigger tid' u' s).pending.map (fun p => p.1) ∧
      tid < (fireTrigger tid' u' s).nextTimeoutId
    unfold fireTrigger
    by_cases hm : (tid', u') ∈ s.pending
    · rw [if_pos hm]
      exact ⟨not_mem_map_fst_of_subset h1 (fun p hp => List.mem_of_mem_filter hp), h2⟩
    · rw [if_neg hm]
      exact ⟨h1, h2⟩
  | upload uid hf f t n =>
    show tid ∉ (postUpload uid hf f t n s).1.pending.map (fun p => p.1) ∧
      tid < (postUpload uid hf f t n s).1.nextTimeoutId
    unfold postUpload
    by_cases hfile : (!hf) = true
    · rw [if_pos hfile]
      exact ⟨h1, h2⟩
    · rw [if_neg hfile]
      by_cases hv : falsy uid = true
      · rw [if_pos hv]
        exact ⟨h1, h2⟩
      · rw [if_neg hv]
        exact ⟨not_mem_map_fst_of_subset h1 (fun p hp => mem_clearUserTimeout hp), h2⟩
  | done uid t n =>
    show tid ∉ (postDone uid t n s).1.pending.map (fun p => p.1) ∧
      tid < (postDone uid t n s).1.nextTimeoutId
    unfold postDone
    by_cases hv : falsy uid = true
    · rw [if_pos hv]
      exact ⟨h1, h2⟩
    · rw [if_neg hv]
      by_cases hup : Sqlite.hasUploadedToday (uid.getD 0) t s.db = true
      · rw [if_pos hup]
        exact ⟨h1, h2⟩
      · rw [if_neg hup]
        exact ⟨h1, h2⟩

theorem dead_tid_ops (tid : Nat) :
    ∀ (ops : List Op) (s : ServerState),
      tid ∉ s.pending.map (fun p => p.1) → tid < s.nextTimeoutId →
      tid ∉ (applyOps ops s).pending.map (fun p => p.1) := by
  intro ops
  induction ops with
  | nil => intro s h1 _; exact h1
  | cons op rest ih =>
    intro s h1 h2
    have hstep := dead_tid_step tid op s h1 h2
    exact ih (applyOp s op) hstep.1 hstep.2

theorem filter_ne_then_eq {α : Type} (l : List (Int × α)) (u : Int) :
    (l.filter (fun p => p.1 != u)).filter (fun p => p.1 == u) = [] := by
  rw [List.filter_filter]
  apply List.filter_eq_nil_iff.mpr
  intro a _
  cases h : a.1 == u <;> simp [bne, h]

/-- C3: starting a timer for a user who already has one first retracts the
old pending trigger: after two consecutive valid `start` calls the user
owns exactly one live pending trigger (the second call's) and exactly one
`TimerState` entry, the first call's trigger is no longer pending, and no
sequence of later server operations can ever revive it — it stays
non-pending forever, and a trigger only fires while pending. -/
theorem startTimer_single_trigger (u d₁ d₂ t₁ t₂ : Int) (s s₁ s₂ : ServerState)
    (hu : u ≠ 0) (hd₁ : d₁ ≠ 0) (hd₂ : d₂ ≠ 0)
    (hcons : timersConsistent u s)
    (hs₁ : s₁ = (postStartTimer (some u) (some d₁) t₁ s).1)
    (hs₂ : s₂ = (postStartTimer (some u) (some d₂) t₂ s₁).1) :
    userTriggers u s₂ = [s₁.nextTimeoutId] ∧
      (s₂.activeTimers.filter (fun p => p.1 == u)).length = 1 ∧
      s.nextTimeoutId ∉ s₂.pending.map (fun p => p.1) ∧
      ∀ ops : List Op, s.nextTimeoutId ∉ (applyOps ops s₂).pending.map (fun p => p.1) := by
  have hcons₁ : timersConsistent u s₁ := by
    rw [hs₁]
    exact consistent_after_start u d₁ t₁ s hu hd₁ hcons
  have hnext₁ : s₁.nextTimeoutId = s.nextTimeoutId + 1 := by
    rw [hs₁, startTimer_state u d₁ hu hd₁ t₁ s]
  have hnext₂ : s₂.nextTimeoutId = s₁.nextTimeoutId + 1 := by
    rw [hs₂, startTimer_state u d₂ hu hd₂ t₂ s₁]
  have hl₁ : lookupTimer u s₁ = some ⟨d₁, t₁, t₁ + d₁ * 60 * 1000, s.nextTimeoutId⟩ := by
    rw [hs₁, startTimer_state u d₁ hu hd₁ t₁ s]
    exact lookupTimer_cons_self u _ _ _ _ _
  have hclear : clearUserTimeout u s₁
      = s₁.pending.filter (fun p => p.1 != s.nextTimeoutId) := by
    unfold clearUserTimeout
    rw [hl₁]
  have hpart3 : s.nextTimeoutId ∉ s₂.pending.map (fun p => p.1) := by
    rw [hs₂, startTimer_state u d₂ hu hd₂ t₂ s₁]
    intro hm
    simp only [List.map_cons, List.mem_cons] at hm
    rcases hm with h | h
    · omega
    · rw [hclear] at h
      exact not_mem_map_fst_filter_ne _ _ h
  refine ⟨?_, ?_, hpart3, ?_⟩
  · rw [hs₂]
    exact userTriggers_after_start u d₂ t₂ s₁ hu hd₂ hcons₁
  · rw [hs₂, startTimer_state u d₂ hu hd₂ t₂ s₁]
    simp only [List.filter_cons]
    rw [show ((u, (⟨d₂, t₂, t₂ + d₂ * 60 * 1000, s₁.nextTimeoutId⟩ : TimerInfo)).1 == u)
        = true by simp]
    rw [filter_ne_then_eq]
    rfl
  · intro ops
    exact dead_tid_ops s.nextTimeoutId ops s₂ hpart3 (by omega)

theorem startTimer_single_trigger_witness :
    ((1 : Int) ≠ 0 ∧ (25 : Int) ≠ 0 ∧ (10 : Int) ≠ 0 ∧
        timersConsistent 1 ⟨[], [], 0, ⟨[], []⟩⟩) ∧
      userTriggers 1
          (postStartTimer (some 1) (some 10) 5
            (postStartTimer (some 1) (some 25) 0 ⟨[], [], 0, ⟨[], []⟩⟩).1).1 =
        [(postStartTimer (some 1) (some 25) 0
            (⟨[], [], 0, ⟨[], []⟩⟩ : ServerState)).1.nextTimeoutId] ∧
      ((postStartTimer (some 1) (some 10) 5
          (postStartTimer (some 1) (some 25) 0 ⟨[], [], 0, ⟨[], []⟩⟩).1).1.activeTimers.filter
          (fun p => p.1 == 1)).length = 1 ∧
      (0 : Nat) ∉
        (postStartTimer (some 1) (some 10) 5
          (postStartTimer (some 1) (some 25) 0 ⟨[], [], 0, ⟨[], []⟩⟩).1).1.pending.map
          (fun p => p.1) ∧
      (0 : Nat) ∉
        (applyOps [Op.fire 0 1]
          (postStartTimer (some 1) (some 10) 5
            (postStartTimer (some 1) (some 25) 0 ⟨[], [], 0, ⟨[], []⟩⟩).1).1).pending.map
          (fun p => p.1) := by
  have H := startTimer_single_trigger 1 25 10 0 5 ⟨[], [], 0, ⟨[], []⟩⟩ _ _
    (by decide) (by decide) (by decide) rfl rfl rfl
  exact ⟨⟨by decide, by decide, by decide, rfl⟩, H.1, H.2.1, H.2.2.1, H.2.2.2 [Op.fire 0 1]⟩

theorem cancelTimer_eq (u : Int) (hu : u ≠ 0) (s : ServerState) :
    postCancelTimer (some u) s =
      match lookupTimer u s with
      | some info =>
          ({ s with activeTimers := s.activeTimers.filter (fun p => p.1 != u),
                    pending := s.pending.filter (fun p => p.1 != info.timeoutId) }, .success)
      | none => (s, .success) := by
  unfold postCancelTimer
  rw [falsy_some_of_ne hu, if_neg Bool.false_ne_true]
  rfl

/-- C4 (amended): for a user with a `Running` timer, `cancelTimer` retracts
the pending trigger and removes the `TimerState` entry and answers success,
but it does not invoke the Session Completion Policy — the database,
sessions included, is untouched; for a user with no timer it is a no-op
returning success, not an error, mutating nothing. -/
theorem cancelTimer_contract (u : Int) (s : ServerState) (hu : u ≠ 0) :
    (lookupTimer u s = none → postCancelTimer (some u) s = (s, .success)) ∧
      (∀ info, lookupTimer u s = some info →
        postCancelTimer (some u) s =
          ({ s with activeTimers := s.activeTimers.filter (fun p => p.1 != u),
                    pending := s.pending.filter (fun p => p.1 != info.timeoutId) },
           .success) ∧
          (postCancelTimer (some u) s).1.db = s.db ∧
          info.timeoutId ∉ (postCancelTimer (some u) s).1.pending.map (fun p => p.1) ∧
          lookupTimer u (postCancelTimer (some u) s).1 = none) := by
  constructor
  · intro hl
    rw [cancelTimer_eq u hu s, hl]
  · intro info hl
    rw [cancelTimer_eq u hu s, hl]
    refine ⟨rfl, rfl, not_mem_map_fst_filter_ne _ _, ?_⟩
    unfold lookupTimer
    have hnone : (List.filter (fun p => p.1 != u) s.activeTimers).find?
        (fun p => p.1 == u) = none := by
      rw [List.find?_eq_none]
      intro p hp hpu
      have := (List.mem_filter.mp hp).2
      rw [beq_iff_eq.mp hpu] at this
      simp at this
    show ((List.filter (fun p => p.1 != u) s.activeTimers).find?
        (fun p => p.1 == u)).map (fun p => p.2) = none
    rw [hnone]
    rfl

/-- C4 counterexample: user 7 has a `Running` timer, yet after
`cancelTimer` no session whatsoever is recorded — the handler never
invokes the Session Completion Policy, so "today becomes recorded as a
completed session" fails (here for today = 100, with an empty database). -/
theorem cancelTimer_no_completion_counterexample :
    lookupTimer 7 (⟨[(7, ⟨25, 0, 1500000, 3⟩)], [(3, 7)], 4, ⟨[], []⟩⟩ : ServerState)
        = some ⟨25, 0, 1500000, 3⟩ ∧
      (postCancelTimer (some 7)
          ⟨[(7, ⟨25, 0, 1500000, 3⟩)], [(3, 7)], 4, ⟨[], []⟩⟩).2 = CancelResult.success ∧
      (postCancelTimer (some 7)
          ⟨[(7, ⟨25, 0, 1500000, 3⟩)], [(3, 7)], 4, ⟨[], []⟩⟩).1.db.sessions = [] ∧
      ((postCancelTimer (some 7)
          ⟨[(7, ⟨25, 0, 1500000, 3⟩)], [(3, 7)], 4, ⟨[], []⟩⟩).1.db.sessions.any
          (sessionMatches 7 100)) = false := by
  decide

theorem cancelTimer_contract_witness :
    (7 : Int) ≠ 0 ∧
      postCancelTimer (some 7) ⟨[], [], 0, ⟨[], []⟩⟩
        = ((⟨[], [], 0, ⟨[], []⟩⟩ : ServerState), CancelResult.success) :=
  ⟨by decide, (cancelTimer_contract 7 ⟨[], [], 0, ⟨[], []⟩⟩ (by decide)).1 rfl⟩

theorem upload_eq (u : Int) (hu : u ≠ 0) (f : String) (today now : Int)
    (s : ServerState) :
    postUpload (some u) true f today now s =
      ({ activeTimers := s.activeTimers.filter (fun p => p.1 != u),
         pending := clearUserTimeout u s,
         nextTimeoutId := s.nextTimeoutId,
         db := uploadedDB u f today now s.db },
       .ok (Sqlite.getUserStats u today (uploadedDB u f today now s.db))) := by
  unfold postUpload
  rw [show (!true) = false from rfl, if_neg Bool.false_ne_true, falsy_some_of_ne hu,
    if_neg Bool.false_ne_true]
  rfl

/-- C5: a successful upload marks today's session complete unconditionally
(one `markSessionComplete` call, no precondition on the state), and the
running timer, if any, is cancelled inline: its entry is gone and its
trigger retracted, with the sessions table written exactly once. -/
theorem upload_completes_and_cancels (u : Int) (f : String) (today now : Int)
    (s : ServerState) (hu : u ≠ 0) :
    (postUpload (some u) true f today now s).1.db.sessions =
        Sqlite.markSessionComplete u today now s.db.sessions ∧
      ((postUpload (some u) true f today now s).1.db.sessions.any
          (sessionMatches u today)) = true ∧
      lookupTimer u (postUpload (some u) true f today now s).1 = none ∧
      (∀ info, lookupTimer u s = some info →
        info.timeoutId ∉
          (postUpload (some u) true f today now s).1.pending.map (fun p => p.1)) ∧
      (postUpload (some u) true f today now s).2 =
        .ok (Sqlite.getUserStats u today (postUpload (some u) true f today now s).1.db) := by
  rw [upload_eq u hu f today now s]
  refine ⟨rfl, ?_, ?_, ?_, rfl⟩
  · show (Sqlite.markSessionComplete u today now _).any (sessionMatches u today) = true
    unfold Sqlite.markSessionComplete
    simp [sessionMatches_self]
  · unfold lookupTimer
    have hnone : (List.filter (fun p => p.1 != u) s.activeTimers).find?
        (fun p => p.1 == u) = none := by
      rw [List.find?_eq_none]
      intro p hp hpu
      have := (List.mem_filter.mp hp).2
      rw [beq_iff_eq.mp hpu] at this
      simp at this
    show ((List.filter (fun p => p.1 != u) s.activeTimers).find?
        (fun p => p.1 == u)).map (fun p => p.2) = none
    rw [hnone]
    rfl
  · intro info hl
    show info.timeoutId ∉ (clearUserTimeout u s).map (fun p => p.1)
    unfold clearUserTimeout
    rw [hl]
    exact not_mem_map_fst_filter_ne _ _

theorem upload_completes_and_cancels_witness :
    (3 : Int) ≠ 0 ∧
      (postUpload (some 3) true "p" 10 11
          ⟨[(3, ⟨25, 0, 5, 0⟩)], [(0, 3)], 1, ⟨[], []⟩⟩).1.db.sessions =
        Sqlite.markSessionComplete 3 10 11
          (⟨[(3, ⟨25, 0, 5, 0⟩)], [(0, 3)], 1, ⟨[], []⟩⟩ : ServerState).db.sessions ∧
      ((postUpload (some 3) true "p" 10 11
          ⟨[(3, ⟨25, 0, 5, 0⟩)], [(0, 3)], 1, ⟨[], []⟩⟩).1.db.sessions.any
          (sessionMatches 3 10)) = true ∧
      lookupTimer 3 (postUpload (some 3) true "p" 10 11
          ⟨[(3, ⟨25, 0, 5, 0⟩)], [(0, 3)], 1, ⟨[], []⟩⟩).1 = none ∧
      (0 : Nat) ∉ (postUpload (some 3) true "p" 10 11
          ⟨[(3, ⟨25, 0, 5, 0⟩)], [(0, 3)], 1, ⟨[], []⟩⟩).1.pending.map (fun p => p.1) ∧
      (postUpload (some 3) true "p" 10 11
          ⟨[(3, ⟨25, 0, 5, 0⟩)], [(0, 3)], 1, ⟨[], []⟩⟩).2 =
        .ok (Sqlite.getUserStats 3 10 (postUpload (some 3) true "p" 10 11
          ⟨[(3, ⟨25, 0, 5, 0⟩)], [(0, 3)], 1, ⟨[], []⟩⟩).1.db) := by
  have H := upload_completes_and_cancels 3 "p" 10 11
    ⟨[(3, ⟨25, 0, 5, 0⟩)], [(0, 3)], 1, ⟨[], []⟩⟩ (by decide)
  exact ⟨by decide, H.1, H.2.1, H.2.2.1, H.2.2.2.1 ⟨25, 0, 5, 0⟩ rfl, H.2.2.2.2⟩

theorem done_eq (u : Int) (hu : u ≠ 0) (today now : Int) (s : ServerState) :
    postDone (some u) today now s =
      if Sqlite.hasUploadedToday u today s.db then
        ({ s with db := { s.db with sessions :=
             Sqlite.markSessionComplete u today now s.db.sessions } },
         .ok (Sqlite.getUserStats u today
           { s.db with sessions := Sqlite.markSessionComplete u today now s.db.sessions }))
      else (s, .preconditionFailed) := by
  unfold postDone
  rw [falsy_some_of_ne hu, if_neg Bool.false_ne_true]
  rfl

/-- C6: `markDone` for a user without an upload recorded today fails with
the precondition error and mutates nothing — the state (persisted stats
and sessions included) is returned unchanged; and it can only succeed when
`hasUploadedToday` is true. -/
theorem markDone_requires_upload (u today now : Int) (s : ServerState) (hu : u ≠ 0) :
    (Sqlite.hasUploadedToday u today s.db = false →
        postDone (some u) today now s = (s, .preconditionFailed)) ∧
      (∀ stats, (postDone (some u) today now s).2 = .ok stats →
        Sqlite.hasUploadedToday u today s.db = true) := by
  constructor
  · intro h
    rw [done_eq u hu today now s, if_neg (by simp [h])]
  · intro stats h
    by_cases hup : Sqlite.hasUploadedToday u today s.db = true
    · exact hup
    · rw [done_eq u hu today now s, if_neg hup] at h
      simp at h

theorem markDone_requires_upload_witness :
    ((4 : Int) ≠ 0 ∧ Sqlite.hasUploadedToday 4 9 (⟨[], []⟩ : DB) = false) ∧
      postDone (some 4) 9 9 ⟨[], [], 0, ⟨[], []⟩⟩
        = ((⟨[], [], 0, ⟨[], []⟩⟩ : ServerState), DoneResult.preconditionFailed) :=
  ⟨⟨by decide, by decide⟩,
   (markDone_requires_upload 4 9 9 ⟨[], [], 0, ⟨[], []⟩⟩ (by decide)).1 rfl⟩

/-- C9 (amended): `startTimer` answers the ValidationError, leaving the
state untouched — no `TimerState`, no scheduled trigger — exactly when
`userId` or `duration` is missing or zero (JavaScript-falsy); every other
value passes the `!userId || !duration` check, so in particular negative
durations are accepted. -/
theorem startTimer_validation (uid dur : Option Int) (now : Int) (s : ServerState) :
    postStartTimer uid dur now s = (s, .validationError) ↔
      (falsy uid || falsy dur) = true := by
  constructor
  · intro h
    by_cases hv : (falsy uid || falsy dur) = true
    · exact hv
    · unfold postStartTimer at h
      rw [if_neg hv] at h
      have := congrArg Prod.snd h
      simp at this
  · intro hv
    unfold postStartTimer
    rw [if_pos hv]

/-- C9 counterexample: the request `{userId: 1, duration: -5}` has an
invalid, non-positive duration, yet it is not rejected: a `TimerState` is
created (with `endTime` in the past) and a completion trigger is
scheduled. -/
theorem startTimer_accepts_negative_duration :
    (postStartTimer (some 1) (some (-5)) 0 ⟨[], [], 0, ⟨[], []⟩⟩).2
        ≠ StartResult.validationError ∧
      lookupTimer 1 (postStartTimer (some 1) (some (-5)) 0 ⟨[], [], 0, ⟨[], []⟩⟩).1
        = some ⟨-5, 0, -300000, 0⟩ ∧
      ((0 : Nat), (1 : Int)) ∈
        (postStartTimer (some 1) (some (-5)) 0 ⟨[], [], 0, ⟨[], []⟩⟩).1.pending := by
  decide

/-! ## `tailsMax` is exactly the longest run of consecutive days anywhere -/

theorem leadRun_le_length : ∀ l : List Int, leadRun l ≤ l.length := by
  intro l
  induction l with
  | nil => simp [leadRun]
  | cons a rest ih =>
    cases rest with
    | nil => simp [leadRun]
    | cons b r' =>
      by_cases h : a - b = 1
      · have he : leadRun (a :: b :: r') = 1 + leadRun (b :: r') := by simp [leadRun, h]
        rw [he]
        simp only [List.length_cons] at ih ⊢
        omega
      · have he : leadRun (a :: b :: r') = 1 := by simp [leadRun, h]
        rw [he]
        simp only [List.length_cons]
        omega

theorem consecRun_take_leadRun : ∀ l : List Int, consecRun (l.take (leadRun l)) = true := by
  intro l
  induction l with
  | nil => rfl
  | cons a rest ih =>
    cases rest with
    | nil => rfl
    | cons b r' =>
      by_cases h : a - b = 1
      · have hk : leadRun (a :: b :: r') = 1 + leadRun (b :: r') := by simp [leadRun, h]
        rw [hk, Nat.add_comm, List.take_succ_cons]
        obtain ⟨k', hk'⟩ : ∃ k', leadRun (b :: r') = k' + 1 :=
          ⟨leadRun (b :: r') - 1, by have := leadRun_pos b r'; omega⟩
        rw [hk', List.take_succ_cons]
        have ih' : consecRun (List.take (k' + 1) (b :: r')) = true := hk' ▸ ih
        rw [List.take_succ_cons] at ih'
        show ((a - b == 1) && consecRun (b :: List.take k' r')) = true
        rw [show (a - b == 1) = true by simp [h]]
        rw [show consecRun (b :: List.take k' r') = true from ih']
        rfl
      · have hk : leadRun (a :: b :: r') = 1 := by simp [leadRun, h]
        rw [hk]
        rfl

theorem consecRun_prefix_le_leadRun :
    ∀ (r l : List Int), r <+: l → consecRun r = true → r.length ≤ leadRun l := by
  intro r
  induction r with
  | nil => intro l _ _; simp
  | cons x r₁ ih =>
    intro l hpre hc
    cases l with
    | nil =>
      rw [List.prefix_nil] at hpre
      exact absurd hpre (List.cons_ne_nil x r₁)
    | cons y l' =>
      obtain ⟨rfl, hpre'⟩ := List.cons_prefix_cons.mp hpre
      cases r₁ with
      | nil => simpa using leadRun_pos x l'
      | cons z r₂ =>
        have hc' : (x - z == 1) = true ∧ consecRun (z :: r₂) = true := by
          have : ((x - z == 1) && consecRun (z :: r₂)) = true := hc
          exact Bool.and_eq_true_iff.mp this
        have hgap : x - z = 1 := beq_iff_eq.mp hc'.1
        cases l' with
        | nil =>
          rw [List.prefix_nil] at hpre'
          exact absurd hpre' (List.cons_ne_nil z r₂)
        | cons w l'' =>
          obtain ⟨rfl, hpre''⟩ := List.cons_prefix_cons.mp hpre'
          have hlead : leadRun (x :: z :: l'') = 1 + leadRun (z :: l'') := by
            simp [leadRun, hgap]
          have hrec := ih (z :: l'') (List.cons_prefix_cons.mpr ⟨rfl, hpre''⟩) hc'.2
          rw [hlead]
          simp only [List.length_cons] at hrec ⊢
          omega

/-- Soundness half of the "longest run anywhere" reading of `tailsMax`:
every nonempty consecutive-day run occurring contiguously in `l` has
length at most `tailsMax l`. -/
theorem consecRun_infix_le_tailsMax :
    ∀ (l r : List Int), r <:+: l → consecRun r = true → r.length ≤ tailsMax l := by
  intro l
  induction l with
  | nil =>
    intro r hin _
    rw [List.infix_nil.mp hin]
    simp [tailsMax]
  | cons a rest ih =>
    intro r hin hc
    rcases List.infix_cons_iff.mp hin with hpre | hinf
    · exact le_trans (consecRun_prefix_le_leadRun r (a :: rest) hpre hc) (le_max_left _ _)
    · exact le_trans (ih r hinf hc) (le_max_right _ _)

/-- Attainment half: for a nonempty list some contiguous consecutive-day
run has length exactly `tailsMax l`, so `tailsMax` is precisely the length
of the longest run of consecutive days anywhere in the sequence. -/
theorem tailsMax_attained :
    ∀ l : List Int, l ≠ [] →
      ∃ r, r <:+: l ∧ consecRun r = true ∧ r.length = tailsMax l := by
  intro l
  induction l with
  | nil => intro h; exact absurd rfl h
  | cons a rest ih =>
    intro _
    by_cases hmax : tailsMax rest ≤ leadRun (a :: rest)
    · refine ⟨(a :: rest).take (leadRun (a :: rest)), (List.take_prefix _ _).isInfix,
        consecRun_take_leadRun (a :: rest), ?_⟩
      rw [List.length_take, Nat.min_eq_left (leadRun_le_length (a :: rest)),
        show tailsMax (a :: rest) = max (leadRun (a :: rest)) (tailsMax rest) from rfl,
        Nat.max_eq_left hmax]
    · have hrest : rest ≠ [] := by
        intro he
        subst he
        simp [tailsMax] at hmax
      obtain ⟨r, hin, hc, hlen⟩ := ih hrest
      refine ⟨r, List.infix_cons hin, hc, ?_⟩
      rw [hlen, show tailsMax (a :: rest) = max (leadRun (a :: rest)) (tailsMax rest) from rfl,
        Nat.max_eq_right (by omega)]
